import Mathlib

/-!
Verification of `scikit-chem` (fragment): the string case-conversion
utilities in `skchem/utils/string.py` and the `Point3D` wrapper in
`skchem/core/point3D.py`.

Strings are modelled as Lean `String` (a list of characters).  The inputs
appearing in the specification are ASCII, and for ASCII characters Lean's
`Char.isUpper` coincides with the Python regex class `[A-Z]` and
`Char.toLower` with Python's `str.lower`.
-/

namespace SkChem

/-! ## `skchem/utils/string.py` -/

mutual

/-- The scan of Python's `re.sub('(?!^)([A-Z]+)', r'_\1', s)` over the part
of the string where no match is in progress: at an uppercase character a
greedy `[A-Z]+` match starts, emitting the replacement's `_` before the
match text. -/
def subCamel : List Char → List Char
  | [] => []
  | c :: cs => if c.isUpper then '_' :: c :: emitRunCamel cs else c :: subCamel cs

/-- Continuation of the scan inside a greedy `[A-Z]+` match: consume the rest
of the uppercase run, copying its characters, and return to `subCamel` at the
first non-uppercase character. -/
def emitRunCamel : List Char → List Char
  | [] => []
  | c :: cs => if c.isUpper then c :: emitRunCamel cs else c :: subCamel cs

end

/-- `camel_to_snail(s)` from `skchem/utils/string.py`:
`re.sub('(?!^)([A-Z]+)', r'_\1', s).lower()`.  The lookahead `(?!^)` makes
position 0 never the start of a match, so the scan proper begins at the
second character. -/
def camel_to_snail (s : String) : String :=
  match s.data with
  | [] => ""
  | c :: cs => ⟨(c :: subCamel cs).map Char.toLower⟩

/-- One pass of the underscore insertion described by the specification for
`camel_to_snail`, over the part of the string after the first character:
an underscore is placed before every maximal run of uppercase letters (the
greedy `[A-Z]+` matches); `prevUpper` records whether the previous character
was uppercase, i.e. whether a run is already in progress. -/
def markRuns (prevUpper : Bool) : List Char → List Char
  | [] => []
  | c :: cs =>
    if c.isUpper && !prevUpper then '_' :: c :: markRuns true cs
    else c :: markRuns c.isUpper cs

/-- The number of maximal runs of uppercase letters in the list (with
`prevUpper` telling whether a run was already open to the left): exactly the
number of underscores `markRuns` inserts. -/
def countRuns (prevUpper : Bool) : List Char → ℕ
  | [] => 0
  | c :: cs => (if c.isUpper && !prevUpper then 1 else 0) + countRuns c.isUpper cs

/-- `camel_to_snail` as the specification words it: insert an underscore
before each run of one-or-more uppercase letters that is not at the start of
the string — that is, before each maximal uppercase run of the part after
the first character — and then lowercase the whole string.  Theorem
`camel_to_snail_eq_spec` identifies it with the regex implementation. -/
def camel_to_snail_spec (s : String) : String :=
  match s.data with
  | [] => ""
  | c :: cs => ⟨(c :: markRuns false cs).map Char.toLower⟩

/-- Python `str.isspace` on ASCII, the character class stripped by
`str.strip()`: space, tab, newline, carriage return, vertical tab, form
feed. -/
def pyIsSpace (c : Char) : Bool :=
  c == ' ' || c == '\t' || c == '\n' || c == '\r' || c == Char.ofNat 11 || c == Char.ofNat 12

/-- Python `str.strip()`: drop leading and trailing whitespace. -/
def pyStrip (l : List Char) : List Char :=
  ((l.dropWhile pyIsSpace).reverse.dropWhile pyIsSpace).reverse

/-- Python `str.lower()` (ASCII fragment): lowercase every character. -/
def pyLower (l : List Char) : List Char :=
  l.map Char.toLower

/-- Python `str.replace(' ', '_')`: replace every space by an underscore.
For a single-character pattern this is a character map. -/
def pyReplaceSpace (l : List Char) : List Char :=
  l.map fun c => if c = ' ' then '_' else c

/-- `free_to_snail(s)` from `skchem/utils/string.py`:
`s.strip().lower().replace(' ', '_')`. -/
def free_to_snail (s : String) : String :=
  ⟨pyReplaceSpace (pyLower (pyStrip s.data))⟩

/-- A character of a snail-case string: a lowercase ASCII letter or the
underscore joining the words. -/
def isSnailChar (c : Char) : Bool := c.isLower || c == '_'

/-! ## `skchem/core/point3D.py`

Coordinates are the numeric `x`, `y`, `z` fields of the wrapped rdkit
point (double-precision floats); they are modelled as rationals, on which
the rounding and fixed-point formatting below coincide with the IEEE-754
behaviour at every value whose two-decimal rounding is not perturbed by the
binary representation error (in particular at all values used by the
specification). -/

/-- Python's built-in `round` to the nearest integer, halves to the nearest
even integer (banker's rounding), as applied by `Point3D.to_dict`.  The
fractional part `q - ⌊q⌋` is compared with `1/2` at the integer level:
`t = 2 * den * (q - ⌊q⌋)` is compared with `den` (see `pyRound_eq` for the
equivalent formulation directly in terms of the fractional part). -/
def pyRound (q : ℚ) : ℤ :=
  let f : ℤ := ⌊q⌋
  let t : ℤ := 2 * (q.num - f * q.den)
  if t < (q.den : ℤ) then f
  else if (q.den : ℤ) < t then f + 1
  else if f % 2 = 0 then f else f + 1

/-- The `Point3D` wrapper: the rdkit base class supplies the three numeric
coordinates; the subclass adds no state. -/
structure Point3D where
  x : ℚ
  y : ℚ
  z : ℚ

/-- `Point3D.to_dict(two_d)`: the Python dict literal is modelled as an
association list in insertion order. -/
def Point3D.to_dict (p : Point3D) (two_d : Bool := true) : List (String × ℤ) :=
  if two_d then
    [("x", pyRound p.x), ("y", pyRound p.y)]
  else
    [("x", pyRound p.x), ("y", pyRound p.y), ("z", pyRound p.z)]

/-- Python `'{:.2f}'.format` on a non-negative value: round `q * 100` to the
nearest integer (halves to even) and print with exactly two digits after the
point.  `mkRat (q.num * 100) q.den` is `q * 100` (lemma
`mkRat_num_mul_hundred`), written this way so that the definition evaluates
by kernel reduction. -/
def format2fNonneg (q : ℚ) : String :=
  let n : ℕ := (pyRound (mkRat (q.num * 100) q.den)).toNat
  toString (n / 100) ++ "." ++ (if n % 100 < 10 then "0" else "") ++ toString (n % 100)

/-- Python `'{:.2f}'.format`: fixed-point rendering with two digits after
the decimal point, used by `__repr__` and `__str__` for each coordinate. -/
def format2f (q : ℚ) : String :=
  if q < 0 then "-" ++ format2fNonneg (-q) else format2fNonneg q

/-- Base-16 digits of `n`, most significant first, by repeated division;
`fuel ≥ n` guarantees termination structurally (lemma `hexDigitsAux_eq`
identifies the result with `(Nat.digits 16 n).reverse`). -/
def hexDigitsAux : ℕ → ℕ → List ℕ
  | _, 0 => []
  | 0, _ + 1 => []
  | fuel + 1, n + 1 => hexDigitsAux fuel ((n + 1) / 16) ++ [(n + 1) % 16]

/-- Python `hex(n)` for a non-negative `n` (CPython object ids are
non-negative): `0x` followed by the base-16 digits, letters lowercase. -/
def pyHex (n : ℕ) : String :=
  if n = 0 then "0x0" else "0x" ++ ⟨(hexDigitsAux n n).map Nat.digitChar⟩

/-- `Point3D.__str__`:
`'({x:.2f}, {y:.2f}, {z:.2f})'.format(x=self.x, y=self.y, z=self.z)`. -/
def Point3D.str (p : Point3D) : String :=
  "(" ++ format2f p.x ++ ", " ++ format2f p.y ++ ", " ++ format2f p.z ++ ")"

/-- `Point3D.__repr__`:
`'<{klass} coords="({x:.2f}, {y:.2f}, {z:.2f})" at {address}>'` with
`klass = 'Point3D'` and `address = hex(id(self))`.  The CPython object id
(the memory address of the instance, distinct for simultaneously live
objects) is not part of the value; it is passed as the argument `addr`. -/
def Point3D.repr (p : Point3D) (addr : ℕ) : String :=
  "<Point3D coords=\"(" ++ format2f p.x ++ ", " ++ format2f p.y ++ ", "
    ++ format2f p.z ++ ")\" at " ++ pyHex addr ++ ">"

end SkChem

namespace SkChem

/-! ## Character-level facts about `Char.toLower` (Python `str.lower`) -/

lemma char_eq_iff_toNat {c d : Char} : c = d ↔ c.toNat = d.toNat :=
  ⟨fun h => h ▸ rfl, fun h => Char.ext (UInt32.toNat.inj h)⟩

lemma char_isUpper_iff {c : Char} : c.isUpper = true ↔ 65 ≤ c.toNat ∧ c.toNat ≤ 90 := by
  rw [Char.isUpper]
  simp [UInt32.le_def, BitVec.le_def, Char.toNat, UInt32.toNat]

lemma char_isLower_iff {c : Char} : c.isLower = true ↔ 97 ≤ c.toNat ∧ c.toNat ≤ 122 := by
  rw [Char.isLower]
  simp [UInt32.le_def, BitVec.le_def, Char.toNat, UInt32.toNat]

lemma toNat_ofNat_valid {n : ℕ} (h : n.isValidChar) : (Char.ofNat n).toNat = n := by
  rw [Char.ofNat, dif_pos h]
  rfl

lemma toNat_toLower (c : Char) :
    (Char.toLower c).toNat = if 65 ≤ c.toNat ∧ c.toNat ≤ 90 then c.toNat + 32 else c.toNat := by
  show (if c.toNat ≥ 65 ∧ c.toNat ≤ 90 then Char.ofNat (c.toNat + 32) else c).toNat = _
  by_cases h : 65 ≤ c.toNat ∧ c.toNat ≤ 90
  · rw [if_pos h, if_pos h]
    exact toNat_ofNat_valid (Or.inl (by omega))
  · rw [if_neg h, if_neg h]

lemma toLower_eq_self {c : Char} (h : c.isUpper = false) : Char.toLower c = c := by
  rw [char_eq_iff_toNat, toNat_toLower, if_neg]
  intro hc
  rw [char_isUpper_iff.mpr hc] at h
  cases h

lemma toLower_toLower (c : Char) : Char.toLower (Char.toLower c) = Char.toLower c := by
  rw [char_eq_iff_toNat, toNat_toLower, toNat_toLower c]
  by_cases hc : 65 ≤ c.toNat ∧ c.toNat ≤ 90
  · rw [if_pos hc, if_neg (by omega)]
  · rw [if_neg hc, if_neg hc]

lemma toLower_eq_iff_of_gap {c : Char} {d : Char}
    (hd : d.toNat < 65 ∨ (90 < d.toNat ∧ d.toNat < 97) ∨ 122 < d.toNat) :
    Char.toLower c = d ↔ c = d := by
  rw [char_eq_iff_toNat, char_eq_iff_toNat, toNat_toLower]
  by_cases hc : 65 ≤ c.toNat ∧ c.toNat ≤ 90
  · rw [if_pos hc]
    omega
  · rw [if_neg hc]

lemma pyIsSpace_iff {c : Char} :
    pyIsSpace c = true ↔
      c.toNat = 32 ∨ c.toNat = 9 ∨ c.toNat = 10 ∨ c.toNat = 13 ∨ c.toNat = 11 ∨ c.toNat = 12 := by
  rw [pyIsSpace]
  simp only [Bool.or_eq_true, beq_iff_eq, char_eq_iff_toNat,
    show (' ' : Char).toNat = 32 from rfl, show ('\t' : Char).toNat = 9 from rfl,
    show ('\n' : Char).toNat = 10 from rfl, show ('\r' : Char).toNat = 13 from rfl,
    show (Char.ofNat 11).toNat = 11 from rfl, show (Char.ofNat 12).toNat = 12 from rfl]
  omega

lemma pyIsSpace_toLower (c : Char) : pyIsSpace (Char.toLower c) = pyIsSpace c := by
  by_cases hc : 65 ≤ c.toNat ∧ c.toNat ≤ 90
  · have h1 : pyIsSpace c = false :=
      Bool.eq_false_iff.mpr fun h => by rcases pyIsSpace_iff.mp h with h | h | h | h | h | h <;> omega
    have h2 : pyIsSpace (Char.toLower c) = false := by
      refine Bool.eq_false_iff.mpr fun h => ?_
      have ht := toNat_toLower c
      rw [if_pos hc] at ht
      rcases pyIsSpace_iff.mp h with h | h | h | h | h | h <;> omega
    rw [h1, h2]
  · rw [toLower_eq_self (Bool.eq_false_iff.mpr fun h => hc (char_isUpper_iff.mp h))]

lemma isSnailChar_spec {c : Char} (h : isSnailChar c = true) :
    Char.toLower c = c ∧ pyIsSpace c = false ∧ c ≠ ' ' := by
  have ht : c.toNat = 95 ∨ (97 ≤ c.toNat ∧ c.toNat ≤ 122) := by
    rw [isSnailChar, Bool.or_eq_true] at h
    rcases h with h | h
    · exact Or.inr (char_isLower_iff.mp h)
    · exact Or.inl (char_eq_iff_toNat.mp (beq_iff_eq.mp h) ▸ rfl)
  refine ⟨toLower_eq_self (Bool.eq_false_iff.mpr fun hu => ?_), ?_, fun hsp => ?_⟩
  · rcases char_isUpper_iff.mp hu with ⟨h1, h2⟩
    omega
  · refine Bool.eq_false_iff.mpr fun hs => ?_
    rcases pyIsSpace_iff.mp hs with h | h | h | h | h | h <;> omega
  · rw [char_eq_iff_toNat] at hsp
    rw [show (' ' : Char).toNat = 32 from rfl] at hsp
    omega

/-! ## The regex scan of `camel_to_snail` versus run marking -/

lemma subCamel_cons (c : Char) (cs : List Char) :
    subCamel (c :: cs) = if c.isUpper then '_' :: c :: emitRunCamel cs else c :: subCamel cs := by
  rw [subCamel.eq_def]

lemma emitRunCamel_cons (c : Char) (cs : List Char) :
    emitRunCamel (c :: cs) = if c.isUpper then c :: emitRunCamel cs else c :: subCamel cs := by
  rw [emitRunCamel.eq_def]

lemma scan_eq_markRuns (l : List Char) :
    subCamel l = markRuns false l ∧ emitRunCamel l = markRuns true l := by
  induction l with
  | nil => exact ⟨rfl, rfl⟩
  | cons c cs ih =>
    constructor
    · rw [subCamel_cons, markRuns]
      cases hc : c.isUpper <;> simp [hc, ih.1, ih.2]
    · rw [emitRunCamel_cons, markRuns]
      cases hc : c.isUpper <;> simp [hc, ih.1, ih.2]

lemma camel_to_snail_eq_spec (s : String) : camel_to_snail s = camel_to_snail_spec s := by
  rw [camel_to_snail, camel_to_snail_spec]
  cases s.data with
  | nil => rfl
  | cons c cs =>
    show String.mk ((c :: subCamel cs).map Char.toLower)
        = String.mk ((c :: markRuns false cs).map Char.toLower)
    rw [(scan_eq_markRuns cs).1]

lemma not_underscore_of_isUpper {c : Char} (h : c.isUpper = true) : ('_' == c) = false := by
  refine Bool.eq_false_iff.mpr fun hb => ?_
  rcases char_isUpper_iff.mp h with ⟨h1, h2⟩
  rw [← char_eq_iff_toNat.mp (beq_iff_eq.mp hb)] at h1 h2
  rw [show ('_' : Char).toNat = 95 from rfl] at h1 h2
  omega

lemma count_underscore_markRuns (l : List Char) :
    ∀ b, (markRuns b l).count '_' = countRuns b l + l.count '_' := by
  induction l with
  | nil => intro b; rfl
  | cons c cs ih =>
    intro b
    cases hu : c.isUpper with
    | false => cases b <;> simp [markRuns, countRuns, hu, List.count_cons, ih] <;> omega
    | true =>
      cases b <;>
        simp [markRuns, countRuns, hu, List.count_cons, ih, not_underscore_of_isUpper hu] <;>
        omega

lemma count_underscore_map_toLower (l : List Char) :
    (l.map Char.toLower).count '_' = l.count '_' := by
  rw [List.count_eq_countP, List.count_eq_countP, List.countP_map]
  refine List.countP_congr fun c _ => ?_
  show ((Char.toLower c == '_') = true) ↔ ((c == '_') = true)
  simp only [beq_iff_eq]
  exact toLower_eq_iff_of_gap (Or.inr (Or.inl ⟨by decide, by decide⟩))

/-! ## Rounding: `pyRound` is round-to-nearest with ties to even -/

lemma num_eq_mul_den (q : ℚ) : (q.num : ℚ) = q * (q.den : ℚ) :=
  (div_eq_iff (by exact_mod_cast q.pos.ne' : (q.den : ℚ) ≠ 0)).mp (Rat.num_div_den q)

lemma pyRound_eq (q : ℚ) :
    pyRound q =
      if q - ⌊q⌋ < 1/2 then ⌊q⌋
      else if 1/2 < q - (⌊q⌋ : ℚ) then ⌊q⌋ + 1
      else if ⌊q⌋ % 2 = 0 then ⌊q⌋ else ⌊q⌋ + 1 := by
  have hden : (0 : ℚ) < (q.den : ℚ) := by exact_mod_cast q.pos
  have hnum : (q.num : ℚ) = q * (q.den : ℚ) := num_eq_mul_den q
  have h1 : (2 * (q.num - ⌊q⌋ * (q.den : ℤ)) < (q.den : ℤ)) ↔ q - (⌊q⌋ : ℚ) < 1/2 := by
    rw [← @Int.cast_lt ℚ _ _ _]
    push_cast
    rw [hnum]
    constructor <;> intro h <;> nlinarith
  have h2 : ((q.den : ℤ) < 2 * (q.num - ⌊q⌋ * (q.den : ℤ))) ↔ (1/2 : ℚ) < q - ⌊q⌋ := by
    rw [← @Int.cast_lt ℚ _ _ _]
    push_cast
    rw [hnum]
    constructor <;> intro h <;> nlinarith
  simp only [pyRound, h1, h2]

lemma pyRound_dist (q : ℚ) : |q - (pyRound q : ℚ)| ≤ 1/2 := by
  rw [pyRound_eq]
  have h0 : (⌊q⌋ : ℚ) ≤ q := Int.floor_le q
  have h1 : q < ⌊q⌋ + 1 := Int.lt_floor_add_one q
  split_ifs with hA hB hC <;> rw [abs_le] <;> constructor <;> push_cast <;> linarith

lemma mkRat_num_mul_hundred (q : ℚ) : mkRat (q.num * 100) q.den = q * 100 := by
  have hden : (0 : ℚ) < (q.den : ℚ) := by exact_mod_cast q.pos
  rw [Rat.mkRat_eq_div, div_eq_iff hden.ne']
  push_cast
  rw [num_eq_mul_den q]
  ring

/-! ## Stripping: `pyStrip` and snail-case strings -/

lemma dropWhile_eq_self_of_all {p : Char → Bool} {l : List Char}
    (h : ∀ c ∈ l, p c = false) : l.dropWhile p = l := by
  cases l with
  | nil => rfl
  | cons a l =>
    rw [List.dropWhile_cons, if_neg]
    rw [h a (List.mem_cons_self a l)]
    simp

lemma pyStrip_eq_self_of_all {l : List Char} (h : ∀ c ∈ l, pyIsSpace c = false) :
    pyStrip l = l := by
  rw [pyStrip, dropWhile_eq_self_of_all h,
    dropWhile_eq_self_of_all fun c hc => h c (List.mem_reverse.mp hc), List.reverse_reverse]

lemma free_to_snail_of_snail {s : String} (h : s.data.all isSnailChar = true) :
    free_to_snail s = s := by
  have hall : ∀ c ∈ s.data, isSnailChar c = true := fun c hc => List.all_eq_true.mp h c hc
  rw [free_to_snail, pyStrip_eq_self_of_all fun c hc => (isSnailChar_spec (hall c hc)).2.1]
  rw [pyLower, List.map_congr_left fun c hc => (isSnailChar_spec (hall c hc)).1, List.map_id']
  rw [pyReplaceSpace,
    List.map_congr_left fun c hc => if_neg (isSnailChar_spec (hall c hc)).2.2, List.map_id']

lemma head?_dropWhile {p : Char → Bool} :
    ∀ {l : List Char} {c : Char}, (l.dropWhile p).head? = some c → p c = false := by
  intro l
  induction l with
  | nil => intro c h; cases h
  | cons a l ih =>
    intro c h
    rw [List.dropWhile_cons] at h
    by_cases hp : p a = true
    · rw [if_pos hp] at h
      exact ih h
    · rw [if_neg hp] at h
      cases h
      exact Bool.eq_false_iff.mpr hp

lemma getLast?_dropWhile {p : Char → Bool} :
    ∀ {l : List Char}, l.dropWhile p ≠ [] → (l.dropWhile p).getLast? = l.getLast? := by
  intro l
  induction l with
  | nil => intro h; cases h rfl
  | cons a l ih =>
    intro h
    rw [List.dropWhile_cons] at h ⊢
    by_cases hp : p a = true
    · rw [if_pos hp] at h ⊢
      cases l with
      | nil => cases h rfl
      | cons b m =>
        rw [List.getLast?_cons_cons]
        exact ih h
    · rw [if_neg hp]

lemma pyStrip_getLast {l : List Char} {c : Char} (h : (pyStrip l).getLast? = some c) :
    pyIsSpace c = false := by
  rw [pyStrip, List.getLast?_reverse] at h
  exact head?_dropWhile h

lemma pyStrip_head {l : List Char} {c : Char} (h : (pyStrip l).head? = some c) :
    pyIsSpace c = false := by
  rw [pyStrip, List.head?_reverse] at h
  have hne : (l.dropWhile pyIsSpace).reverse.dropWhile pyIsSpace ≠ [] := by
    intro he
    rw [he] at h
    cases h
  rw [getLast?_dropWhile hne, List.getLast?_reverse] at h
  exact head?_dropWhile h

/-! ## `pyHex` renders distinct numbers distinctly -/

lemma hexDigitsAux_eq : ∀ fuel n, n ≤ fuel → hexDigitsAux fuel n = (Nat.digits 16 n).reverse := by
  intro fuel
  induction fuel with
  | zero =>
    intro n hn
    rw [Nat.le_zero.mp hn]
    simp [hexDigitsAux]
  | succ fuel ih =>
    intro n hn
    match n with
    | 0 => simp [hexDigitsAux]
    | m + 1 =>
      rw [hexDigitsAux, Nat.digits_def' (by norm_num : (1:ℕ) < 16) (Nat.succ_pos m),
        List.reverse_cons, ih ((m + 1) / 16) (by omega)]

lemma digitChar_inj_lt {d₁ d₂ : ℕ} (h₁ : d₁ < 16) (h₂ : d₂ < 16)
    (h : Nat.digitChar d₁ = Nat.digitChar d₂) : d₁ = d₂ := by
  have key : ∀ a b : Fin 16, Nat.digitChar a.val = Nat.digitChar b.val → a = b := by decide
  have := key ⟨d₁, h₁⟩ ⟨d₂, h₂⟩ h
  exact congrArg Fin.val this

lemma map_digitChar_inj :
    ∀ l₁ l₂ : List ℕ, (∀ d ∈ l₁, d < 16) → (∀ d ∈ l₂, d < 16) →
      l₁.map Nat.digitChar = l₂.map Nat.digitChar → l₁ = l₂ := by
  intro l₁
  induction l₁ with
  | nil =>
    intro l₂ _ _ h
    cases l₂ with
    | nil => rfl
    | cons b m => cases h
  | cons a l ih =>
    intro l₂ h₁ h₂ h
    cases l₂ with
    | nil => cases h
    | cons b m =>
      rw [List.map_cons, List.map_cons] at h
      have hab := List.cons.inj h
      rw [digitChar_inj_lt (h₁ a (List.mem_cons_self a l)) (h₂ b (List.mem_cons_self b m)) hab.1,
        ih m (fun d hd => h₁ d (List.mem_cons_of_mem a hd))
          (fun d hd => h₂ d (List.mem_cons_of_mem b hd)) hab.2]

lemma digits16_lt (n : ℕ) : ∀ d ∈ Nat.digits 16 n, d < 16 :=
  fun _ hd => Nat.digits_lt_base (by norm_num) hd

lemma pyHex_inj {m n : ℕ} (h : pyHex m = pyHex n) : m = n := by
  have hdata : ∀ k, k ≠ 0 →
      (pyHex k).data = '0' :: 'x' :: ((Nat.digits 16 k).reverse.map Nat.digitChar) := by
    intro k hk
    rw [pyHex, if_neg hk, hexDigitsAux_eq k k le_rfl]
    rfl
  by_cases hm : m = 0 <;> by_cases hn : n = 0
  · rw [hm, hn]
  · exfalso
    rw [hm] at h
    have h2 := congrArg String.data h
    rw [hdata n hn] at h2
    rw [show (pyHex 0).data = ['0', 'x', '0'] from rfl] at h2
    have h3 : ['0'] = (Nat.digits 16 n).reverse.map Nat.digitChar :=
      (List.cons.inj (List.cons.inj h2).2).2
    have h4 : ([0] : List ℕ) = (Nat.digits 16 n).reverse := by
      apply map_digitChar_inj
      · intro d hd; simp at hd; omega
      · intro d hd
        exact digits16_lt n d (List.mem_reverse.mp hd)
      · exact h3
    have h5 : Nat.digits 16 n = [0] := by
      rw [← List.reverse_reverse (Nat.digits 16 n), ← h4]
      rfl
    have h6 := Nat.ofDigits_digits 16 n
    rw [h5] at h6
    simp [Nat.ofDigits] at h6
    exact hn h6.symm
  · exfalso
    rw [hn] at h
    have h2 := congrArg String.data h
    rw [hdata m hm] at h2
    rw [show (pyHex 0).data = ['0', 'x', '0'] from rfl] at h2
    have h3 : ['0'] = (Nat.digits 16 m).reverse.map Nat.digitChar :=
      ((List.cons.inj (List.cons.inj h2).2).2).symm
    have h4 : ([0] : List ℕ) = (Nat.digits 16 m).reverse := by
      apply map_digitChar_inj
      · intro d hd; simp at hd; omega
      · intro d hd
        exact digits16_lt m d (List.mem_reverse.mp hd)
      · exact h3
    have h5 : Nat.digits 16 m = [0] := by
      rw [← List.reverse_reverse (Nat.digits 16 m), ← h4]
      rfl
    have h6 := Nat.ofDigits_digits 16 m
    rw [h5] at h6
    simp [Nat.ofDigits] at h6
    exact hm h6.symm
  · have h2 := congrArg String.data h
    rw [hdata m hm, hdata n hn] at h2
    have h2x := (List.cons.inj (List.cons.inj h2).2).2
    have h3 := map_digitChar_inj _ _
      (fun d hd => digits16_lt m d (List.mem_reverse.mp hd))
      (fun d hd => digits16_lt n d (List.mem_reverse.mp hd)) h2x
    have h4 := congrArg List.reverse h3
    rw [List.reverse_reverse, List.reverse_reverse] at h4
    exact Nat.digits.injective 16 h4

lemma repr_addr_ne {p q : Point3D} {a₁ a₂ : ℕ} (hx : p.x = q.x) (hy : p.y = q.y)
    (hz : p.z = q.z) (ha : a₁ ≠ a₂) : Point3D.repr p a₁ ≠ Point3D.repr q a₂ := by
  intro h
  apply ha
  apply pyHex_inj
  rw [Point3D.repr, Point3D.repr, hx, hy, hz] at h
  have h2 := congrArg String.data h
  simp only [String.data_append] at h2
  have h3 := List.append_cancel_right h2
  have h4 := List.append_cancel_left h3
  exact congrArg String.mk h4

/-! ## Claims -/

/-- C1: `camel_to_snail` inserts an underscore before each run of one-or-more
uppercase letters that is not at the start of the string and then lowercases
the whole string; in particular `camel_to_snail "CamelCase" = "camel_case"`,
`camel_to_snail "" = ""` and `camel_to_snail "lower" = "lower"`. -/
theorem camel_to_snail_matches_spec :
    (∀ s : String, camel_to_snail s = camel_to_snail_spec s) ∧
    camel_to_snail "CamelCase" = "camel_case" ∧
    camel_to_snail "" = "" ∧
    camel_to_snail "lower" = "lower" :=
  ⟨camel_to_snail_eq_spec, by decide, by decide, by decide⟩

/-- C2 counterexample: `camel_to_snail "HTTPServer"` is not
`"_h_t_t_p_server"` — the greedy `[A-Z]+` consumes a whole uppercase run per
match, and no underscore is ever inserted before the first character. -/
theorem camel_to_snail_HTTPServer_counterexample :
    camel_to_snail "HTTPServer" ≠ "_h_t_t_p_server" := by decide

/-- C2 amended: `camel_to_snail "HTTPServer" = "h_ttpserver"` — for an input
beginning with consecutive capitals, the single greedy `[A-Z]+` match starting
at the second character triggers exactly one underscore insertion, and none
before the first character. -/
theorem camel_to_snail_HTTPServer_greedy :
    camel_to_snail "HTTPServer" = "h_ttpserver" := by decide

/-- C3: for every point, `to_dict` with `two_d` true (the default) returns a
mapping whose keys are exactly `"x"` and `"y"`, holding the coordinates
rounded to the nearest integer (`pyRound` is within 1/2 of the value), and
with `two_d` false a mapping with keys exactly `"x"`, `"y"`, `"z"`. -/
theorem to_dict_keys_rounded :
    (∀ p : Point3D,
      Point3D.to_dict p = Point3D.to_dict p true ∧
      (Point3D.to_dict p true).map Prod.fst = ["x", "y"] ∧
      Point3D.to_dict p true = [("x", pyRound p.x), ("y", pyRound p.y)] ∧
      (Point3D.to_dict p false).map Prod.fst = ["x", "y", "z"] ∧
      Point3D.to_dict p false = [("x", pyRound p.x), ("y", pyRound p.y), ("z", pyRound p.z)]) ∧
    ∀ q : ℚ, |q - (pyRound q : ℚ)| ≤ 1/2 :=
  ⟨fun _ => ⟨rfl, rfl, rfl, rfl, rfl⟩, pyRound_dist⟩

/-- C4: on the point (x = 1.4, y = 2.6, z = 3.5), `to_dict true` is exactly
x ↦ 1, y ↦ 3, and `to_dict false` additionally has z ↦ 4: the half value
3.5 rounds to the even integer 4 under Python round-half-to-even. -/
theorem to_dict_concrete_rounding :
    Point3D.to_dict ⟨mkRat 7 5, mkRat 13 5, mkRat 7 2⟩ true = [("x", 1), ("y", 3)] ∧
    Point3D.to_dict ⟨mkRat 7 5, mkRat 13 5, mkRat 7 2⟩ false = [("x", 1), ("y", 3), ("z", 4)] ∧
    pyRound (mkRat 7 2) = 4 := by decide

/-- C5: `free_to_snail` trims leading and trailing whitespace, lowercases the
string and replaces each space character with an underscore; in particular
`free_to_snail "  Hello World  " = "hello_world"` and
`free_to_snail "" = ""`. -/
theorem free_to_snail_stages_and_examples :
    (∀ s : String, free_to_snail s = ⟨pyReplaceSpace (pyLower (pyStrip s.data))⟩) ∧
    free_to_snail "  Hello World  " = "hello_world" ∧
    free_to_snail "" = "" :=
  ⟨fun _ => rfl, by decide, by decide⟩

/-- C6: the display string of a point formats x, y and z each to two decimal
places with no class name or identifier; for the point (1, 2, 3) it is
exactly `"(1.00, 2.00, 3.00)"`. -/
theorem point_str_two_decimals :
    (∀ p : Point3D,
      Point3D.str p = "(" ++ format2f p.x ++ ", " ++ format2f p.y ++ ", "
        ++ format2f p.z ++ ")") ∧
    Point3D.str ⟨1, 2, 3⟩ = "(1.00, 2.00, 3.00)" :=
  ⟨fun _ => rfl, by decide⟩

/-- C7: the debug representation of every point contains the class name, the
coordinates formatted to two decimal places and the per-instance identifier
in hexadecimal, and is distinct for two instances with identical coordinates
but distinct identifiers. -/
theorem point_repr_contents_distinct :
    (∀ (p : Point3D) (addr : ℕ),
      Point3D.repr p addr =
        "<Point3D coords=\"(" ++ format2f p.x ++ ", " ++ format2f p.y ++ ", "
          ++ format2f p.z ++ ")\" at " ++ pyHex addr ++ ">") ∧
    ∀ (p q : Point3D) (a₁ a₂ : ℕ), p.x = q.x → p.y = q.y → p.z = q.z → a₁ ≠ a₂ →
      Point3D.repr p a₁ ≠ Point3D.repr q a₂ :=
  ⟨fun _ _ => rfl, fun _ _ _ _ hx hy hz ha => repr_addr_ne hx hy hz ha⟩

/-- C7 witness: two instances at coordinates (1, 2, 3) with identifiers 4096
and 8192 have distinct debug representations. -/
theorem point_repr_contents_distinct_witness :
    Point3D.repr ⟨1, 2, 3⟩ 4096 ≠ Point3D.repr ⟨1, 2, 3⟩ 8192 :=
  point_repr_contents_distinct.2 ⟨1, 2, 3⟩ ⟨1, 2, 3⟩ 4096 8192 rfl rfl rfl (by decide)

/-- C8: `free_to_snail` is idempotent on strings already in snail case
(lowercase letters joined by underscores, hence no surrounding
whitespace). -/
theorem free_to_snail_idempotent_on_snail (s : String)
    (h : s.data.all isSnailChar = true) :
    free_to_snail (free_to_snail s) = free_to_snail s := by
  rw [free_to_snail_of_snail h, free_to_snail_of_snail h]

/-- C8 witness: idempotence at the snail-case string "hello_world". -/
theorem free_to_snail_idempotent_on_snail_witness :
    "hello_world".data.all isSnailChar = true ∧
    free_to_snail (free_to_snail "hello_world") = free_to_snail "hello_world" :=
  ⟨by decide, free_to_snail_idempotent_on_snail "hello_world" (by decide)⟩

/-- C9: `camel_to_snail` never inserts an underscore before the first
character: the output of a non-empty input begins with the lowercased first
character; for an input starting with an uppercase letter the number of
inserted underscores is exactly the number of maximal uppercase runs of the
remainder of the string; and `camel_to_snail "HTTPServer" = "h_ttpserver"`. -/
theorem camel_to_snail_no_initial_underscore :
    (∀ (c : Char) (cs : List Char),
      (camel_to_snail ⟨c :: cs⟩).data.head? = some (Char.toLower c)) ∧
    (∀ (c : Char) (cs : List Char), c.isUpper = true →
      (camel_to_snail ⟨c :: cs⟩).data.count '_' = countRuns false cs + cs.count '_') ∧
    camel_to_snail "HTTPServer" = "h_ttpserver" := by
  refine ⟨fun c cs => rfl, fun c cs hc => ?_, by decide⟩
  have h1 : (camel_to_snail ⟨c :: cs⟩).data = (c :: subCamel cs).map Char.toLower := rfl
  have hne : (c == '_') = false := by
    refine Bool.eq_false_iff.mpr fun hb => ?_
    rw [beq_iff_eq.mp hb] at hc
    exact absurd hc (by decide)
  rw [h1, count_underscore_map_toLower, List.count_cons, hne,
    (scan_eq_markRuns cs).1, count_underscore_markRuns]
  simp

/-- C9 witness: for "HTTPServer" (initial uppercase 'H'), the inserted
underscores number exactly the maximal uppercase runs of "TTPServer",
namely one. -/
theorem camel_to_snail_no_initial_underscore_witness :
    (camel_to_snail ⟨'H' :: "TTPServer".data⟩).data.count '_'
      = countRuns false "TTPServer".data + "TTPServer".data.count '_' :=
  camel_to_snail_no_initial_underscore.2.1 'H' "TTPServer".data (by decide)

/-- C10: `free_to_snail` replaces only the space character with an
underscore; interior whitespace characters other than space pass through the
lowercasing unchanged, so the result can still contain whitespace, while the
result never starts or ends with a whitespace character. -/
theorem free_to_snail_preserves_nonspace_whitespace :
    (∀ s : String,
      free_to_snail s
        = ⟨(pyStrip s.data).map fun c => if Char.toLower c = ' ' then '_' else Char.toLower c⟩) ∧
    (∀ c : Char, pyIsSpace c = true → c ≠ ' ' →
      (if Char.toLower c = ' ' then '_' else Char.toLower c) = c) ∧
    (∀ (s : String) (c : Char), (free_to_snail s).data.head? = some c → pyIsSpace c = false) ∧
    (∀ (s : String) (c : Char), (free_to_snail s).data.getLast? = some c → pyIsSpace c = false) ∧
    free_to_snail "\tA\tB c\n" = "a\tb_c" := by
  have hdata : ∀ s : String, (free_to_snail s).data
      = (pyStrip s.data).map fun c => if Char.toLower c = ' ' then '_' else Char.toLower c := by
    intro s
    show pyReplaceSpace (pyLower (pyStrip s.data)) = _
    rw [pyReplaceSpace, pyLower, List.map_map]
    rfl
  have hg : ∀ c : Char, pyIsSpace c = false →
      pyIsSpace (if Char.toLower c = ' ' then '_' else Char.toLower c) = false := by
    intro c h
    by_cases hsp : Char.toLower c = ' '
    · rw [if_pos hsp]
      decide
    · rw [if_neg hsp, pyIsSpace_toLower, h]
  refine ⟨fun s => congrArg String.mk (hdata s), fun c hsp hne => ?_, fun s c h => ?_,
    fun s c h => ?_, by decide⟩
  · have hlow : Char.toLower c = c := by
      apply toLower_eq_self
      refine Bool.eq_false_iff.mpr fun hu => ?_
      rcases char_isUpper_iff.mp hu with ⟨h1, h2⟩
      rcases pyIsSpace_iff.mp hsp with h3 | h3 | h3 | h3 | h3 | h3 <;> omega
    rw [hlow, if_neg hne]
  · rw [hdata s, List.head?_map] at h
    cases hh : (pyStrip s.data).head? with
    | none => rw [hh] at h; cases h
    | some c₀ =>
      rw [hh] at h
      have hc : c = if Char.toLower c₀ = ' ' then '_' else Char.toLower c₀ :=
        (Option.some.inj h).symm
      rw [hc]
      exact hg c₀ (pyStrip_head hh)
  · rw [hdata s, List.getLast?_map] at h
    cases hh : (pyStrip s.data).getLast? with
    | none => rw [hh] at h; cases h
    | some c₀ =>
      rw [hh] at h
      have hc : c = if Char.toLower c₀ = ' ' then '_' else Char.toLower c₀ :=
        (Option.some.inj h).symm
      rw [hc]
      exact hg c₀ (pyStrip_getLast hh)

/-- C10 witness: the interior tab (whitespace but not a space) passes
through `free_to_snail`'s per-character transformation unchanged, and the
first character of a concrete output is not whitespace. -/
theorem free_to_snail_preserves_nonspace_whitespace_witness :
    (if Char.toLower '\t' = ' ' then '_' else Char.toLower '\t') = '\t' ∧
    pyIsSpace 'a' = false :=
  ⟨free_to_snail_preserves_nonspace_whitespace.2.1 '\t' (by decide) (by decide),
   free_to_snail_preserves_nonspace_whitespace.2.2.1 " ab" 'a' (by decide)⟩

end SkChem
